import Mathlib

/-!
Verification development for the memory-admission-control subsystem and the
arena-friendly `ChunkedVector` container.

The `ChunkedVector` model is translated from
`src/core/lib/gprpp/chunked_vector.h`.  The fuzzer driver model is translated
from `test/core/resource_quota/memory_quota_fuzzer.cc`.  The memory-quota
implementation itself (`memory_quota.h` / `memory_quota.cc`) is not part of
the available sources; the pieces of it that the fuzzer calls into are
modelled from the specification and are marked as such in their doc comments.
-/

namespace ChunkedVector

/-- Model of `ChunkedVector<T, kChunkSize>`.

The C++ object is a singly linked list of chunks starting at `first_`, each
chunk holding `count` initialized slots out of `kChunkSize`.  `chunks` lists,
in linked-list order, the live elements (`data[0..count)`) of each allocated
chunk; uninitialized slots carry no value and are not represented.
`append` is the index of the chunk `append_` points at.  `first_ == nullptr`
(and hence `append_ == nullptr`) is modelled as `chunks = []`, with
`append = 0` by convention. -/
structure CV (α : Type) where
  chunks : List (List α)
  append : Nat
deriving DecidableEq

/-- `EmplaceBack` (via `AppendSlot`): if there is no chunk yet, allocate one;
if the append chunk is full, advance to its successor (allocating it when it
does not exist yet); then initialize slot `data[count]` and bump `count`,
i.e. append the element at the end of the append chunk's live prefix. -/
def EmplaceBack (k : Nat) (v : CV α) (x : α) : CV α :=
  if v.chunks.isEmpty then ⟨[[x]], 0⟩
  else if (v.chunks.getD v.append []).length = k then
    if v.append + 1 = v.chunks.length then
      ⟨v.chunks ++ [[x]], v.append + 1⟩
    else
      ⟨v.chunks.set (v.append + 1) ((v.chunks.getD (v.append + 1) []) ++ [x]),
        v.append + 1⟩
  else
    ⟨v.chunks.set v.append ((v.chunks.getD v.append []) ++ [x]), v.append⟩

/-- Remove the last live element of the chunk at index `a` and make it the
append chunk (`last = count - 1; result = data[last]; count = last`).
`none` models the undefined behavior of `count - 1` underflowing on an empty
chunk (never reached from a valid vector). -/
def popChunkAt (v : CV α) (a : Nat) : Option (α × CV α) :=
  match (v.chunks.getD a []).getLast? with
  | none => none
  | some x => some (x, ⟨v.chunks.set a (v.chunks.getD a []).dropLast, a⟩)

/-- `PopBack`: `GPR_ASSERT(append_ != nullptr)`; if the append chunk is empty,
`GPR_ASSERT(first_ != append_)` and retreat `append_` to its predecessor;
then remove and return the last element of the append chunk.  `none` models a
fatal assertion (or the subsequent undefined behavior). -/
def PopBack (v : CV α) : Option (α × CV α) :=
  if v.chunks.isEmpty then none
  else if (v.chunks.getD v.append []).length = 0 then
    if v.append = 0 then none
    else popChunkAt v (v.append - 1)
  else popChunkAt v v.append

/-- `Clear` walks chunks from `first_`, destroying live elements and zeroing
`count`, stopping at the first chunk whose `count` is already `0` (or at the
end), then resets `append_ = first_`. -/
def clearChunks : List (List α) → List (List α)
  | [] => []
  | c :: rest => if c.length = 0 then c :: rest else [] :: clearChunks rest

/-- `Clear` on the whole vector. -/
def Clear (v : CV α) : CV α := ⟨clearChunks v.chunks, 0⟩

/-- The element sequence of the vector (iteration order of `ForwardIterator`). -/
def elems (v : CV α) : List α := v.chunks.flatten

/-- `size()`: sum of the `count` fields over all chunks. -/
def size (v : CV α) : Nat := (v.chunks.map List.length).sum

/-- Representation validity of the pointer structure: when chunks exist the
`append_` pointer designates one of them. -/
def Valid (v : CV α) : Prop := v.chunks = [] ∨ v.append < v.chunks.length

/-- Structural invariant of every `ChunkedVector` built through its API:
either no chunk is allocated, or the chunk list splits as
`pre ++ c :: post` with `append_` designating `c`, every chunk before the
append chunk full, the append chunk at most full, and every chunk after the
append chunk empty. -/
def WF (k : Nat) (v : CV α) : Prop :=
  (v.chunks = [] ∧ v.append = 0) ∨
  ∃ pre c post, v.chunks = pre ++ c :: post ∧ v.append = pre.length ∧
    (∀ p ∈ pre, List.length p = k) ∧ c.length ≤ k ∧ (∀ p ∈ post, p = [])

/-- States reachable through the mutating API of `ChunkedVector`:
default construction, `EmplaceBack`, a non-fatal `PopBack`, and `Clear`. -/
inductive Reachable (k : Nat) : CV α → Prop where
  | nil : Reachable k ⟨[], 0⟩
  | emp {v : CV α} (x : α) : Reachable k v → Reachable k (EmplaceBack k v x)
  | pop {v v2 : CV α} {x : α} : Reachable k v → PopBack v = some (x, v2) →
      Reachable k v2
  | clr {v : CV α} : Reachable k v → Reachable k (Clear v)

/-- A concrete one-element vector, used as concrete input. -/
def c10Demo : CV Nat := EmplaceBack 2 ⟨[], 0⟩ 5

end ChunkedVector

namespace MemQuota

/-- `ReclamationPass`, the closed enumeration of reclamation tiers in
escalation order (`MapReclamationPass` in the fuzzer maps the proto enum onto
exactly these three values). -/
inductive ReclamationPass where
  | kBenign
  | kIdle
  | kDestructive
deriving DecidableEq

/-- `std::numeric_limits<ssize_t>::max()`, the upper clamp bound used by the
fuzzer for `kSetQuotaSize`. -/
def ssizeMax : Nat := 2 ^ 63 - 1

/-- Modelled from the spec: `MemoryRequest::max_allowed_size()`, the global
per-request cap (`GlobalMaxRequestSize`).  The implementation is not among
the available sources and the spec fixes no numeric value; the model uses
2^30 bytes.  All claims about it are relative to the constant. -/
def maxAllowedSize : Nat := 2 ^ 30

/-- `Clamp(val, min, max)` from `gpr` (`useful.h`, not among the available
sources): clamp `val` into `[lo, hi]`. -/
def Clamp (val lo hi : Nat) : Nat :=
  if val < lo then lo else if val > hi then hi else val

/-- Modelled from the spec: the state of one underlying quota object
(`BasicMemoryQuota`): a mutable `size_limit` and an aggregate `used` counter. -/
structure QuotaObj where
  sizeLimit : Nat
  used : Nat
deriving DecidableEq

/-- Modelled from the spec: the state of one underlying owner/allocator
object (`MemoryOwner` and its allocator): the object id of the quota it is
bound to, the usage it attributes to that quota, and at most one active
reclaimer registration per tier (represented by the callback's tag). -/
structure OwnerObj where
  boundQuota : Nat
  attributed : Nat
  benign : Option Nat
  idle : Option Nat
  destructive : Option Nat
deriving DecidableEq

/-- A `MemoryAllocator::Reservation` value: its granted byte count and the
object id of the allocator that issued it. -/
structure ReservationObj where
  granted : Nat
  owner : Nat
deriving DecidableEq

/-- The fuzzer's state: the three `std::map<int, ...>` registries
(`memory_quotas_`, `memory_allocators_`, `allocations_`), plus the stores of
underlying quota/owner objects those registries reference.  Objects are kept
by shared references in the C++ code, so deleting a registry entry does not
destroy the underlying object while other entries still reference it; the
model therefore separates handle maps (handle to object id) from object
stores (object id to object state).  `nextObj` supplies fresh object ids. -/
structure FuzzerState where
  nextObj : Nat
  quotaObjs : List (Nat × QuotaObj)
  ownerObjs : List (Nat × OwnerObj)
  memoryQuotas : List (Nat × Nat)
  memoryAllocators : List (Nat × Nat)
  allocations : List (Nat × ReservationObj)
deriving DecidableEq

/-- Lookup in an association list (`std::map::find`). -/
def lookupK : List (Nat × α) → Nat → Option α
  | [], _ => none
  | (k, v) :: rest, q => if k = q then some v else lookupK rest q

/-- Key removal (`std::map::erase`); erasing an absent key changes nothing. -/
def eraseK : List (Nat × α) → Nat → List (Nat × α)
  | [], _ => []
  | (k, v) :: rest, q => if k = q then eraseK rest q else (k, v) :: eraseK rest q

/-- Pointwise update of the value stored at a key. -/
def updateK : List (Nat × α) → Nat → (α → α) → List (Nat × α)
  | [], _, _ => []
  | (k, v) :: rest, q, f =>
    if k = q then (k, f v) :: updateK rest q f else (k, v) :: updateK rest q f

/-- Store `tag` as the sole active reclaimer for `pass`, replacing any
previous registration for that tier (`MemoryOwner::PostReclaimer`, modelled
from the spec). -/
def setReclaimer (o : OwnerObj) (p : ReclamationPass) (tag : Nat) : OwnerObj :=
  match p with
  | .kBenign => { o with benign := some tag }
  | .kIdle => { o with idle := some tag }
  | .kDestructive => { o with destructive := some tag }

/-- The active reclaimer registration of an owner for a tier. -/
def getReclaimer (o : OwnerObj) (p : ReclamationPass) : Option Nat :=
  match p with
  | .kBenign => o.benign
  | .kIdle => o.idle
  | .kDestructive => o.destructive

/-- Owner destruction clears all tier registrations (spec section 4.3). -/
def clearReclaimers (o : OwnerObj) : OwnerObj :=
  { o with benign := none, idle := none, destructive := none }

/-- Modelled from the spec: `MakeReservation(min, max)`.  A request with
`min > max` or with `max` above the global per-request cap is rejected before
any state mutation (`InvalidRequest`, spec section 7, mirrored by the
fuzzer's guards).  Otherwise `granted = clamp(min + headroom)` into
`[min, max]` where `headroom` is the bound quota's remaining budget floored
at zero, and the grant increases the quota's `used`; the call never fails
merely because the quota is over budget. -/
def MakeReservation (minR maxR : Nat) (q : QuotaObj) : Option (Nat × QuotaObj) :=
  if minR > maxR then none
  else if maxR > maxAllowedSize then none
  else
    let headroom := q.sizeLimit - q.used
    let granted := Clamp (minR + headroom) minR maxR
    some (granted, { q with used := q.used + granted })

/-- One fuzzer action (`memory_quota_fuzzer::Action`), restricted to the
fields `Fuzzer::RunMsg` reads.  A reclaimer callback is identified by a `tag`
(the callback closes over `cfg.msg()`; distinct configurations give distinct
callbacks). -/
inductive Action where
  | flushExecCtx
  | createQuota (quota : Nat)
  | deleteQuota (quota : Nat)
  | createAllocator (quota allocator : Nat)
  | deleteAllocator (allocator : Nat)
  | setQuotaSize (quota : Nat) (size : Nat)
  | rebindQuota (quota allocator : Nat)
  | createAllocation (allocator allocation : Nat) (minR maxR : Nat)
  | deleteAllocation (allocation : Nat)
  | postReclaimer (allocator : Nat) (synchronous : Bool) (pass : ReclamationPass)
      (tag : Nat)
  | actionTypeNotSet
deriving DecidableEq

/-- One iteration of `Fuzzer::RunMsg`'s action switch.

Notes on the translation:
* `WithQuota` / `WithAllocator` look the handle up and silently return when
  it is absent.
* `std::map::emplace` does not overwrite an existing key; a value created for
  a failing emplace is destroyed on the spot.  For `kCreateQuota` and
  `kCreateAllocator` that destruction is unobservable; for
  `kCreateAllocation` the freshly made reservation is released immediately,
  returning the quota's `used` to its previous value, so the net state is
  unchanged and the model short-circuits.
* In `kPostReclaimer` the source assigns `reclaimer` in both branches of
  `if (cfg.synchronous())` but the `a->PostReclaimer(pass, reclaimer)` call
  sits inside the asynchronous `else` branch only, so a synchronous
  configuration never registers anything.
* The reclamation pipeline itself is modelled separately (`Pipeline` below);
  this state machine tracks the registries and accounting the fuzzer
  observes, in which `kFlushExecCtx` has no modelled effect. -/
def runAction (s : FuzzerState) : Action → FuzzerState
  | .flushExecCtx => s
  | .createQuota q =>
    if (lookupK s.memoryQuotas q).isSome then s
    else
      { s with
        memoryQuotas := s.memoryQuotas ++ [(q, s.nextObj)],
        quotaObjs := s.quotaObjs ++ [(s.nextObj, ⟨ssizeMax, 0⟩)],
        nextObj := s.nextObj + 1 }
  | .deleteQuota q => { s with memoryQuotas := eraseK s.memoryQuotas q }
  | .createAllocator q a =>
    match lookupK s.memoryQuotas q with
    | none => s
    | some qid =>
      if (lookupK s.memoryAllocators a).isSome then s
      else
        { s with
          memoryAllocators := s.memoryAllocators ++ [(a, s.nextObj)],
          ownerObjs := s.ownerObjs ++ [(s.nextObj, ⟨qid, 0, none, none, none⟩)],
          nextObj := s.nextObj + 1 }
  | .deleteAllocator a =>
    match lookupK s.memoryAllocators a with
    | none => s
    | some oid =>
      { s with
        memoryAllocators := eraseK s.memoryAllocators a,
        ownerObjs := updateK s.ownerObjs oid clearReclaimers }
  | .setQuotaSize q n =>
    match lookupK s.memoryQuotas q with
    | none => s
    | some qid =>
      { s with
        quotaObjs := updateK s.quotaObjs qid
          (fun qo => { qo with sizeLimit := Clamp n 0 ssizeMax }) }
  | .rebindQuota q a =>
    match lookupK s.memoryQuotas q with
    | none => s
    | some qid =>
      match lookupK s.memoryAllocators a with
      | none => s
      | some oid =>
        match lookupK s.ownerObjs oid with
        | none => s
        | some o =>
          { s with
            quotaObjs :=
              updateK
                (updateK s.quotaObjs o.boundQuota
                  (fun qo => { qo with used := qo.used - o.attributed }))
                qid (fun qo => { qo with used := qo.used + o.attributed }),
            ownerObjs := updateK s.ownerObjs oid
              (fun ow => { ow with boundQuota := qid }) }
  | .createAllocation a r mn mx =>
    if mn > mx then s
    else if mx > maxAllowedSize then s
    else
      match lookupK s.memoryAllocators a with
      | none => s
      | some oid =>
        match lookupK s.ownerObjs oid with
        | none => s
        | some ow =>
          match lookupK s.quotaObjs ow.boundQuota with
          | none => s
          | some qo =>
            match MakeReservation mn mx qo with
            | none => s
            | some (g, qo2) =>
              if (lookupK s.allocations r).isSome then s
              else
                { s with
                  quotaObjs := updateK s.quotaObjs ow.boundQuota (fun _ => qo2),
                  ownerObjs := updateK s.ownerObjs oid
                    (fun o => { o with attributed := o.attributed + g }),
                  allocations := s.allocations ++ [(r, ⟨g, oid⟩)] }
  | .deleteAllocation r =>
    match lookupK s.allocations r with
    | none => s
    | some res =>
      match lookupK s.ownerObjs res.owner with
      | none => { s with allocations := eraseK s.allocations r }
      | some ow =>
        { s with
          allocations := eraseK s.allocations r,
          ownerObjs := updateK s.ownerObjs res.owner
            (fun o => { o with attributed := o.attributed - res.granted }),
          quotaObjs := updateK s.quotaObjs ow.boundQuota
            (fun qo => { qo with used := qo.used - res.granted }) }
  | .postReclaimer a sync p tag =>
    if sync then s
    else
      match lookupK s.memoryAllocators a with
      | none => s
      | some oid =>
        { s with
          ownerObjs := updateK s.ownerObjs oid (fun o => setReclaimer o p tag) }
  | .actionTypeNotSet => s

/-- `Fuzzer::RunMsg` over a whole action list. -/
def RunMsg (s : FuzzerState) (msg : List Action) : FuzzerState :=
  msg.foldl runAction s

/-- The fuzzer's initial state: all registries empty. -/
def initState : FuzzerState := ⟨0, [], [], [], [], []⟩

/-- The `size_limit` of the quota a live handle references. -/
def quotaLimitOfHandle (s : FuzzerState) (h : Nat) : Option Nat :=
  match lookupK s.memoryQuotas h with
  | none => none
  | some qid => (lookupK s.quotaObjs qid).map QuotaObj.sizeLimit

/-- The active reclaimer registration, for tier `p`, of the owner a live
handle references. -/
def reclaimerOfHandle (s : FuzzerState) (h : Nat) (p : ReclamationPass) :
    Option Nat :=
  match lookupK s.memoryAllocators h with
  | none => none
  | some oid =>
    match lookupK s.ownerObjs oid with
    | none => none
    | some o => getReclaimer o p

/-- A state with one live quota handle `0`, used as concrete input. -/
def c7State : FuzzerState := RunMsg initState [Action.createQuota 0]

/-- A state with one live quota handle `0` and one live owner handle `1`. -/
def c2Base : FuzzerState :=
  RunMsg initState [Action.createQuota 0, Action.createAllocator 0 1]

/-- A state with a live quota handle `1`, owner handle `2` and allocation
handle `3`, used as concrete input for the deletion claims. -/
def c6State : FuzzerState :=
  RunMsg initState
    [Action.createQuota 1, Action.createAllocator 1 2,
      Action.createAllocation 2 3 1 5]

end MemQuota

namespace Pipeline

open MemQuota (ReclamationPass)

/-- The tier that follows `t` in the strict escalation order
`Benign < Idle < Destructive`; `none` after the last tier. -/
def tierNext : ReclamationPass → Option ReclamationPass
  | .kBenign => some .kIdle
  | .kIdle => some .kDestructive
  | .kDestructive => none

/-- Modelled from the spec (section 4.4): the per-quota states of the
reclamation pipeline. -/
inductive Phase where
  | normal
  | reclaiming (t : ReclamationPass)
  | exhausted
deriving DecidableEq

/-- Modelled from the spec (sections 4.1, 4.4, 5): the observable state of
one quota's reclamation pipeline.  `outstanding` counts the sweeps dispatched
for the current tier that have not yet signaled completion.  `regBenign`,
`regIdle`, `regDestructive` count the quota's owners holding a registered
reclaimer for each tier (constant here; registration churn is tracked by the
fuzzer model). -/
structure PipeState where
  sizeLimit : Nat
  used : Nat
  phase : Phase
  outstanding : Nat
  regBenign : Nat
  regIdle : Nat
  regDestructive : Nat
deriving DecidableEq

/-- Number of owners with a registered reclaimer for tier `t`. -/
def regCount (s : PipeState) : ReclamationPass → Nat
  | .kBenign => s.regBenign
  | .kIdle => s.regIdle
  | .kDestructive => s.regDestructive

/-- Entering the reclaiming state for tier `t` dispatches one sweep to every
owner of the quota that has a registered reclaimer for `t`. -/
def enterTier (s : PipeState) (t : ReclamationPass) : PipeState :=
  { s with phase := .reclaiming t, outstanding := regCount s t }

/-- `NoteUsageChanged` / `SetSize` entry condition: if the quota is not
already reclaiming and `used > size_limit`, schedule the pipeline, which
starts at the lowest tier.  An `Exhausted` quota stays eligible to
re-trigger on the next usage change or `SetSize`. -/
def maybeStartReclamation (s : PipeState) : PipeState :=
  if (s.phase = Phase.normal ∨ s.phase = Phase.exhausted) ∧
      s.sizeLimit < s.used then
    enterTier s .kBenign
  else s

/-- Modelled from the spec: the events driving one quota's pipeline.
`alloc` / `release` are usage changes from grants and releases, `setSize`
is `SetSize`, `sweepDone` is one dispatched sweep signaling completion
(having freed `freed` bytes), and `check` is the pipeline's continuation
re-checking the budget once the current tier has no outstanding sweeps. -/
inductive PEvent where
  | alloc (g : Nat)
  | release (g : Nat)
  | setSize (n : Nat)
  | sweepDone (freed : Nat)
  | check
deriving DecidableEq

/-- Modelled from the spec (section 4.4): one step of the pipeline state
machine.  Sweeps for a tier are dispatched only on entering that tier; after
all sweeps of the tier complete, the budget is re-checked and the pipeline
settles back to `Normal`, escalates to the next tier, or — after the last
tier — enters `Exhausted`. -/
def pstep (s : PipeState) : PEvent → PipeState
  | .alloc g => maybeStartReclamation { s with used := s.used + g }
  | .release g => maybeStartReclamation { s with used := s.used - g }
  | .setSize n => maybeStartReclamation { s with sizeLimit := n }
  | .sweepDone f =>
    match s.phase with
    | .reclaiming _ =>
      if 0 < s.outstanding then
        { s with outstanding := s.outstanding - 1, used := s.used - f }
      else s
    | _ => s
  | .check =>
    match s.phase with
    | .reclaiming t =>
      if s.outstanding = 0 then
        if s.used ≤ s.sizeLimit then { s with phase := .normal }
        else
          match tierNext t with
          | some t2 => enterTier s t2
          | none => { s with phase := .exhausted }
      else s
    | _ => s

/-- Run the pipeline over a list of events. -/
def prun (s : PipeState) (es : List PEvent) : PipeState := es.foldl pstep s

/-- A concrete pipeline start state: empty budget, no usage, `Normal`, no
registered reclaimers. -/
def pipeDemoStart : PipeState := ⟨0, 0, Phase.normal, 0, 0, 0, 0⟩

/-- A concrete event list driving `pipeDemoStart` to `Exhausted`. -/
def pipeDemoEvents : List PEvent :=
  [PEvent.alloc 1, PEvent.check, PEvent.check, PEvent.check]

/-- The state just before the transition to `Exhausted` on `pipeDemoEvents`. -/
def pipeDemoS3 : PipeState :=
  prun pipeDemoStart [PEvent.alloc 1, PEvent.check, PEvent.check]

end Pipeline

namespace MemQuota

theorem lookupK_eraseK (l : List (Nat × α)) (k : Nat) :
    lookupK (eraseK l k) k = none := by
  induction l with
  | nil => rfl
  | cons p rest ih =>
    obtain ⟨k2, v⟩ := p
    by_cases h : k2 = k
    · simp [eraseK, h, ih]
    · simp [eraseK, lookupK, h, ih]

theorem eraseK_eraseK (l : List (Nat × α)) (k : Nat) :
    eraseK (eraseK l k) k = eraseK l k := by
  induction l with
  | nil => rfl
  | cons p rest ih =>
    obtain ⟨k2, v⟩ := p
    by_cases h : k2 = k
    · simp [eraseK, h, ih]
    · simp [eraseK, h, ih]

theorem lookupK_updateK_self (l : List (Nat × α)) (k : Nat) (f : α → α) :
    lookupK (updateK l k f) k = (lookupK l k).map f := by
  induction l with
  | nil => rfl
  | cons p rest ih =>
    obtain ⟨k2, v⟩ := p
    by_cases h : k2 = k
    · simp [updateK, lookupK, h]
    · simp [updateK, lookupK, h, ih]

theorem Clamp_of_le {n hi : Nat} (h : n ≤ hi) : Clamp n 0 hi = n := by
  unfold Clamp
  rw [if_neg (by omega), if_neg (by omega)]

theorem Clamp_bounds (v lo hi : Nat) (h : lo ≤ hi) :
    lo ≤ Clamp v lo hi ∧ Clamp v lo hi ≤ hi := by
  unfold Clamp
  split_ifs <;> omega

/-- C1: a `CreateAllocation` request with `min > max`, or with `max` above
the global per-request cap `MemoryRequest::max_allowed_size()`, is rejected
before any state mutation: no reservation is produced, no allocation is
recorded, and no quota, allocator or registry state changes. -/
theorem claim_C1 (s : FuzzerState) (a r mn mx : Nat)
    (h : mx < mn ∨ maxAllowedSize < mx) :
    runAction s (Action.createAllocation a r mn mx) = s := by
  simp only [runAction]
  rcases h with h | h
  · rw [if_pos h]
  · by_cases h1 : mn > mx
    · rw [if_pos h1]
    · rw [if_neg h1, if_pos h]

theorem claim_C1_witness :
    ((3 : Nat) < 5 ∨ maxAllowedSize < 3) ∧
      runAction initState (Action.createAllocation 0 0 5 3) = initState :=
  ⟨Or.inl (by decide), claim_C1 initState 0 0 5 3 (Or.inl (by decide))⟩

/-- C4: every operation referencing a quota or owner/allocator handle absent
from the corresponding registry (`WithQuota` / `WithAllocator` lookup
failure) is a no-op: no registry, quota, allocator or allocation state
changes. -/
theorem claim_C4 (s : FuzzerState) :
    (∀ q n, lookupK s.memoryQuotas q = none →
        runAction s (Action.setQuotaSize q n) = s) ∧
    (∀ q a, lookupK s.memoryQuotas q = none →
        runAction s (Action.createAllocator q a) = s) ∧
    (∀ q a,
        lookupK s.memoryQuotas q = none ∨ lookupK s.memoryAllocators a = none →
        runAction s (Action.rebindQuota q a) = s) ∧
    (∀ a r mn mx, lookupK s.memoryAllocators a = none →
        runAction s (Action.createAllocation a r mn mx) = s) ∧
    (∀ a sync p tag, lookupK s.memoryAllocators a = none →
        runAction s (Action.postReclaimer a sync p tag) = s) := by
  refine ⟨?_, ?_, ?_, ?_, ?_⟩
  · intro q n h
    simp [runAction, h]
  · intro q a h
    simp [runAction, h]
  · intro q a h
    rcases h with h | h
    · simp [runAction, h]
    · cases hq : lookupK s.memoryQuotas q <;> simp [runAction, hq, h]
  · intro a r mn mx h
    simp only [runAction]
    by_cases h1 : mn > mx
    · rw [if_pos h1]
    · rw [if_neg h1]
      by_cases h2 : mx > maxAllowedSize
      · rw [if_pos h2]
      · rw [if_neg h2]
        simp [h]
  · intro a sync p tag h
    cases sync <;> simp [runAction, h]

theorem claim_C4_witness :
    runAction initState (Action.setQuotaSize 3 9) = initState ∧
    runAction initState (Action.createAllocator 3 4) = initState ∧
    runAction initState (Action.rebindQuota 3 4) = initState ∧
    runAction initState (Action.createAllocation 4 5 1 2) = initState ∧
    runAction initState
        (Action.postReclaimer 4 false ReclamationPass.kBenign 7) = initState :=
  ⟨(claim_C4 initState).1 3 9 rfl,
    (claim_C4 initState).2.1 3 4 rfl,
    (claim_C4 initState).2.2.1 3 4 (Or.inl rfl),
    (claim_C4 initState).2.2.2.1 4 5 1 2 rfl,
    (claim_C4 initState).2.2.2.2 4 false ReclamationPass.kBenign 7 rfl⟩

/-- C6: deleting the same quota, owner/allocator, or allocation handle a
second time after a first successful deletion is a no-op: the second
`std::map::erase` finds nothing and no state changes. -/
theorem claim_C6 (s : FuzzerState) (k : Nat) :
    ((lookupK s.memoryQuotas k).isSome = true →
      runAction (runAction s (Action.deleteQuota k)) (Action.deleteQuota k) =
        runAction s (Action.deleteQuota k)) ∧
    ((lookupK s.memoryAllocators k).isSome = true →
      runAction (runAction s (Action.deleteAllocator k))
          (Action.deleteAllocator k) =
        runAction s (Action.deleteAllocator k)) ∧
    ((lookupK s.allocations k).isSome = true →
      runAction (runAction s (Action.deleteAllocation k))
          (Action.deleteAllocation k) =
        runAction s (Action.deleteAllocation k)) := by
  refine ⟨?_, ?_, ?_⟩
  · intro _
    simp [runAction, eraseK_eraseK]
  · intro h
    obtain ⟨oid, hoid⟩ := Option.isSome_iff_exists.mp h
    simp [runAction, hoid, lookupK_eraseK]
  · intro h
    obtain ⟨res, hres⟩ := Option.isSome_iff_exists.mp h
    cases how : lookupK s.ownerObjs res.owner <;>
      simp [runAction, hres, how, lookupK_eraseK]

theorem claim_C6_witness :
    (lookupK c6State.memoryQuotas 1).isSome = true ∧
    runAction (runAction c6State (Action.deleteQuota 1)) (Action.deleteQuota 1) =
      runAction c6State (Action.deleteQuota 1) ∧
    (lookupK c6State.memoryAllocators 2).isSome = true ∧
    runAction (runAction c6State (Action.deleteAllocator 2))
        (Action.deleteAllocator 2) =
      runAction c6State (Action.deleteAllocator 2) ∧
    (lookupK c6State.allocations 3).isSome = true ∧
    runAction (runAction c6State (Action.deleteAllocation 3))
        (Action.deleteAllocation 3) =
      runAction c6State (Action.deleteAllocation 3) :=
  ⟨rfl, (claim_C6 c6State 1).1 rfl, rfl, (claim_C6 c6State 2).2.1 rfl, rfl,
    (claim_C6 c6State 3).2.2 rfl⟩

/-- C7 counterexample: the fuzzer clamps the requested size into
`[0, ssize_t_max]` before calling `SetSize`, so the representable uint64
request `2^63` leaves `size_limit = 2^63 - 1`, not the requested value. -/
theorem claim_C7_counterexample :
    quotaLimitOfHandle (runAction c7State (Action.setQuotaSize 0 (2 ^ 63))) 0 =
        some (2 ^ 63 - 1) ∧ (2 ^ 63 - 1 : Nat) ≠ 2 ^ 63 := by
  constructor
  · rfl
  · decide

/-- C7 (amended): for every `SetQuotaSize(handle, n)` operation on a live
quota and every representable request `n`, the quota's `size_limit`
afterwards equals `Clamp(n, 0, 2^63 - 1)`: exactly `n` whenever
`n ≤ ssize_t_max = 2^63 - 1`, and `2^63 - 1` for every larger request. -/
theorem claim_C7 (s : FuzzerState) (q n qid : Nat) (qo : QuotaObj)
    (hq : lookupK s.memoryQuotas q = some qid)
    (hobj : lookupK s.quotaObjs qid = some qo) :
    quotaLimitOfHandle (runAction s (Action.setQuotaSize q n)) q =
        some (Clamp n 0 ssizeMax) ∧
      (n ≤ ssizeMax → Clamp n 0 ssizeMax = n) ∧
      (ssizeMax < n → Clamp n 0 ssizeMax = ssizeMax) := by
  refine ⟨?_, ?_, ?_⟩
  · simp [runAction, hq, quotaLimitOfHandle, lookupK_updateK_self, hobj]
  · intro hn
    exact Clamp_of_le hn
  · intro hn
    unfold Clamp
    rw [if_neg (by omega), if_pos hn]

theorem claim_C7_witness :
    (quotaLimitOfHandle (runAction c7State (Action.setQuotaSize 0 7)) 0 =
        some (Clamp 7 0 ssizeMax) ∧
      Clamp 7 0 ssizeMax = 7) ∧
    (quotaLimitOfHandle
          (runAction c7State (Action.setQuotaSize 0 (2 ^ 63))) 0 =
        some (Clamp (2 ^ 63) 0 ssizeMax) ∧
      Clamp (2 ^ 63) 0 ssizeMax = ssizeMax) :=
  ⟨⟨(claim_C7 c7State 0 7 0 ⟨ssizeMax, 0⟩ rfl rfl).1,
      (claim_C7 c7State 0 7 0 ⟨ssizeMax, 0⟩ rfl rfl).2.1 (by decide)⟩,
    ⟨(claim_C7 c7State 0 (2 ^ 63) 0 ⟨ssizeMax, 0⟩ rfl rfl).1,
      (claim_C7 c7State 0 (2 ^ 63) 0 ⟨ssizeMax, 0⟩ rfl rfl).2.2 (by decide)⟩⟩

/-- C3 counterexample: a request with `min ≤ max` and
`min ≤ GlobalMaxRequestSize` but `max > GlobalMaxRequestSize` is rejected,
so a reservation request does not fail only when `min > max` or `min`
exceeds the cap. -/
theorem claim_C3_counterexample :
    (0 : Nat) ≤ maxAllowedSize + 1 ∧ (0 : Nat) ≤ maxAllowedSize ∧
      MakeReservation 0 (maxAllowedSize + 1) ⟨ssizeMax, 0⟩ = none := by
  refine ⟨Nat.zero_le _, Nat.zero_le _, ?_⟩
  unfold MakeReservation
  rw [if_neg (by decide), if_pos (by decide)]

/-- C3 (amended): a reservation request fails only when `min > max` or when
`max` exceeds `GlobalMaxRequestSize`; for every request with `min ≤ max` and
`max ≤ GlobalMaxRequestSize`, `MakeReservation` succeeds whatever the
quota's budget state — it never fails merely because the quota is over
budget. -/
theorem claim_C3 (mn mx : Nat) (q : QuotaObj) (h1 : mn ≤ mx)
    (h2 : mx ≤ maxAllowedSize) :
    (MakeReservation mn mx q).isSome = true := by
  unfold MakeReservation
  rw [if_neg (by omega), if_neg (by omega)]
  rfl

theorem claim_C3_witness :
    (1 : Nat) ≤ 2 ∧ (2 : Nat) ≤ maxAllowedSize ∧
      (MakeReservation 1 2 ⟨0, 100⟩).isSome = true :=
  ⟨by decide, by decide, claim_C3 1 2 ⟨0, 100⟩ (by decide) (by decide)⟩

/-- C5: every successful `MakeReservation(min, max)` grants a size with
`min ≤ granted ≤ max` and `granted ≤ GlobalMaxRequestSize`. -/
theorem claim_C5 (mn mx g : Nat) (q q2 : QuotaObj)
    (h : MakeReservation mn mx q = some (g, q2)) :
    mn ≤ g ∧ g ≤ mx ∧ g ≤ maxAllowedSize := by
  unfold MakeReservation at h
  by_cases h1 : mn > mx
  · rw [if_pos h1] at h
    exact Option.noConfusion h
  · rw [if_neg h1] at h
    by_cases h2 : mx > maxAllowedSize
    · rw [if_pos h2] at h
      exact Option.noConfusion h
    · rw [if_neg h2] at h
      simp only [Option.some.injEq, Prod.mk.injEq] at h
      obtain ⟨hg, -⟩ := h
      subst hg
      obtain ⟨hlo, hhi⟩ := Clamp_bounds (mn + (q.sizeLimit - q.used)) mn mx
        (by omega)
      exact ⟨hlo, hhi, by omega⟩

theorem claim_C5_witness :
    MakeReservation 1 2 ⟨100, 0⟩ = some (2, ⟨100, 2⟩) ∧
      (1 : Nat) ≤ 2 ∧ (2 : Nat) ≤ 2 ∧ (2 : Nat) ≤ maxAllowedSize :=
  ⟨by decide, claim_C5 1 2 2 ⟨100, 0⟩ ⟨100, 2⟩ (by decide)⟩

/-- C2 (code bug): on a live owner, a `kPostReclaimer` action with
`synchronous = true` constructs the reclaimer but never registers it — the
`a->PostReclaimer(pass, reclaimer)` call sits inside the asynchronous
`else` branch only, leaving the assignment of `reclaimer` in the synchronous
branch dead — so the whole action is a no-op and no reclaimer is stored.
The asynchronous path, by contrast, stores the callback as the sole active
reclaimer for the pass, a later registration replacing the earlier one. -/
theorem claim_C2 :
    (lookupK c2Base.memoryAllocators 1).isSome = true ∧
    runAction c2Base (Action.postReclaimer 1 true ReclamationPass.kBenign 7) =
      c2Base ∧
    reclaimerOfHandle
        (runAction c2Base
          (Action.postReclaimer 1 true ReclamationPass.kBenign 7))
        1 ReclamationPass.kBenign = none ∧
    reclaimerOfHandle
        (runAction c2Base
          (Action.postReclaimer 1 false ReclamationPass.kBenign 7))
        1 ReclamationPass.kBenign = some 7 ∧
    reclaimerOfHandle
        (runAction
          (runAction c2Base
            (Action.postReclaimer 1 false ReclamationPass.kBenign 7))
          (Action.postReclaimer 1 false ReclamationPass.kBenign 8))
        1 ReclamationPass.kBenign = some 8 :=
  ⟨rfl, rfl, rfl, rfl, rfl⟩

end MemQuota

namespace PipelineProofs

open MemQuota (ReclamationPass)
open Pipeline

theorem prun_append_one (s : PipeState) (es : List PEvent) (e : PEvent) :
    prun s (es ++ [e]) = pstep (prun s es) e := by
  simp [prun, List.foldl_append]

theorem pstep_sweepDone_phase (s : PipeState) (f : Nat) :
    (pstep s (PEvent.sweepDone f)).phase = s.phase := by
  simp only [pstep]
  rcases hp : s.phase with _ | t0 | _
  · exact hp
  · split_ifs
    · rfl
    · exact hp
  · exact hp

theorem maybeStart_phase (s : PipeState) :
    ((maybeStartReclamation s).phase =
        Phase.reclaiming ReclamationPass.kBenign ∧
      (s.phase = Phase.normal ∨ s.phase = Phase.exhausted)) ∨
    (maybeStartReclamation s).phase = s.phase := by
  unfold maybeStartReclamation
  split_ifs with hc
  · exact Or.inl ⟨rfl, hc.1⟩
  · exact Or.inr rfl

theorem pstep_reclaiming (s : PipeState) (e : PEvent) (t : ReclamationPass)
    (h : (pstep s e).phase = Phase.reclaiming t) :
    s.phase = Phase.reclaiming t ∨
    (t = ReclamationPass.kBenign ∧
      (s.phase = Phase.normal ∨ s.phase = Phase.exhausted)) ∨
    (∃ t0, tierNext t0 = some t ∧ s.phase = Phase.reclaiming t0 ∧
      s.outstanding = 0) := by
  cases e with
  | alloc g =>
    simp only [pstep] at h
    rcases maybeStart_phase { s with used := s.used + g } with ⟨hb, hcond⟩ | hsame
    · rw [h] at hb
      injection hb with ht
      subst ht
      exact Or.inr (Or.inl ⟨rfl, hcond⟩)
    · rw [hsame] at h
      exact Or.inl h
  | release g =>
    simp only [pstep] at h
    rcases maybeStart_phase { s with used := s.used - g } with ⟨hb, hcond⟩ | hsame
    · rw [h] at hb
      injection hb with ht
      subst ht
      exact Or.inr (Or.inl ⟨rfl, hcond⟩)
    · rw [hsame] at h
      exact Or.inl h
  | setSize n =>
    simp only [pstep] at h
    rcases maybeStart_phase { s with sizeLimit := n } with ⟨hb, hcond⟩ | hsame
    · rw [h] at hb
      injection hb with ht
      subst ht
      exact Or.inr (Or.inl ⟨rfl, hcond⟩)
    · rw [hsame] at h
      exact Or.inl h
  | sweepDone f =>
    rw [pstep_sweepDone_phase] at h
    exact Or.inl h
  | check =>
    rcases hp : s.phase with _ | t0 | _
    · have hs : pstep s PEvent.check = s := by
        simp only [pstep, hp]
      rw [hs] at h
      exact Phase.noConfusion (hp.symm.trans h)
    · by_cases h0 : s.outstanding = 0
      · by_cases hu : s.used ≤ s.sizeLimit
        · have hs : pstep s PEvent.check = { s with phase := Phase.normal } := by
            simp only [pstep, hp]
            rw [if_pos h0, if_pos hu]
          rw [hs] at h
          exact Phase.noConfusion
            (show Phase.normal = Phase.reclaiming t from h)
        · cases t0 with
          | kBenign =>
            have hs : pstep s PEvent.check = enterTier s ReclamationPass.kIdle := by
              simp only [pstep, hp]
              rw [if_pos h0, if_neg hu]
              simp only [tierNext]
            rw [hs] at h
            have h2 : Phase.reclaiming ReclamationPass.kIdle =
                Phase.reclaiming t := h
            injection h2 with ht
            subst ht
            exact Or.inr (Or.inr ⟨ReclamationPass.kBenign, rfl, rfl, h0⟩)
          | kIdle =>
            have hs : pstep s PEvent.check =
                enterTier s ReclamationPass.kDestructive := by
              simp only [pstep, hp]
              rw [if_pos h0, if_neg hu]
              simp only [tierNext]
            rw [hs] at h
            have h2 : Phase.reclaiming ReclamationPass.kDestructive =
                Phase.reclaiming t := h
            injection h2 with ht
            subst ht
            exact Or.inr (Or.inr ⟨ReclamationPass.kIdle, rfl, rfl, h0⟩)
          | kDestructive =>
            have hs : pstep s PEvent.check = { s with phase := Phase.exhausted } := by
              simp only [pstep, hp]
              rw [if_pos h0, if_neg hu]
              simp only [tierNext]
            rw [hs] at h
            exact Phase.noConfusion
              (show Phase.exhausted = Phase.reclaiming t from h)
      · have hs : pstep s PEvent.check = s := by
          simp only [pstep, hp]
          rw [if_neg h0]
        rw [hs] at h
        rw [hp] at h
        exact Or.inl h
    · have hs : pstep s PEvent.check = s := by
        simp only [pstep, hp]
      rw [hs] at h
      exact Phase.noConfusion (hp.symm.trans h)

theorem pstep_exhausted (s : PipeState) (e : PEvent)
    (h : (pstep s e).phase = Phase.exhausted) :
    s.phase = Phase.exhausted ∨
    (s.phase = Phase.reclaiming ReclamationPass.kDestructive ∧
      s.outstanding = 0) := by
  cases e with
  | alloc g =>
    simp only [pstep] at h
    rcases maybeStart_phase { s with used := s.used + g } with ⟨hb, -⟩ | hsame
    · rw [h] at hb
      exact Phase.noConfusion hb
    · rw [hsame] at h
      exact Or.inl h
  | release g =>
    simp only [pstep] at h
    rcases maybeStart_phase { s with used := s.used - g } with ⟨hb, -⟩ | hsame
    · rw [h] at hb
      exact Phase.noConfusion hb
    · rw [hsame] at h
      exact Or.inl h
  | setSize n =>
    simp only [pstep] at h
    rcases maybeStart_phase { s with sizeLimit := n } with ⟨hb, -⟩ | hsame
    · rw [h] at hb
      exact Phase.noConfusion hb
    · rw [hsame] at h
      exact Or.inl h
  | sweepDone f =>
    rw [pstep_sweepDone_phase] at h
    exact Or.inl h
  | check =>
    rcases hp : s.phase with _ | t0 | _
    · have hs : pstep s PEvent.check = s := by
        simp only [pstep, hp]
      rw [hs] at h
      exact Phase.noConfusion (hp.symm.trans h)
    · by_cases h0 : s.outstanding = 0
      · by_cases hu : s.used ≤ s.sizeLimit
        · have hs : pstep s PEvent.check = { s with phase := Phase.normal } := by
            simp only [pstep, hp]
            rw [if_pos h0, if_pos hu]
          rw [hs] at h
          exact Phase.noConfusion (show Phase.normal = Phase.exhausted from h)
        · cases t0 with
          | kBenign =>
            have hs : pstep s PEvent.check = enterTier s ReclamationPass.kIdle := by
              simp only [pstep, hp]
              rw [if_pos h0, if_neg hu]
              simp only [tierNext]
            rw [hs] at h
            exact Phase.noConfusion
              (show Phase.reclaiming ReclamationPass.kIdle = Phase.exhausted from h)
          | kIdle =>
            have hs : pstep s PEvent.check =
                enterTier s ReclamationPass.kDestructive := by
              simp only [pstep, hp]
              rw [if_pos h0, if_neg hu]
              simp only [tierNext]
            rw [hs] at h
            exact Phase.noConfusion
              (show Phase.reclaiming ReclamationPass.kDestructive =
                Phase.exhausted from h)
          | kDestructive => exact Or.inr ⟨rfl, h0⟩
      · have hs : pstep s PEvent.check = s := by
          simp only [pstep, hp]
          rw [if_neg h0]
        rw [hs] at h
        exact Phase.noConfusion (hp.symm.trans h)
    · exact Or.inl rfl

theorem visited_invariant (s0 : PipeState) (h0 : s0.phase = Phase.normal)
    (es : List PEvent) :
    ((prun s0 es).phase = Phase.reclaiming ReclamationPass.kIdle →
      ∃ p1, p1 <+: es ∧
        (prun s0 p1).phase = Phase.reclaiming ReclamationPass.kBenign) ∧
    ((prun s0 es).phase = Phase.reclaiming ReclamationPass.kDestructive →
      ∃ p1 p2, p1 <+: p2 ∧ p2 <+: es ∧
        (prun s0 p1).phase = Phase.reclaiming ReclamationPass.kBenign ∧
        (prun s0 p2).phase = Phase.reclaiming ReclamationPass.kIdle) ∧
    ((prun s0 es).phase = Phase.exhausted →
      ∃ p1 p2 p3, p1 <+: p2 ∧ p2 <+: p3 ∧ p3 <+: es ∧
        (prun s0 p1).phase = Phase.reclaiming ReclamationPass.kBenign ∧
        (prun s0 p2).phase = Phase.reclaiming ReclamationPass.kIdle ∧
        (prun s0 p3).phase = Phase.reclaiming ReclamationPass.kDestructive) := by
  induction es using List.reverseRecOn with
  | nil =>
    refine ⟨?_, ?_, ?_⟩ <;> intro h <;> rw [show prun s0 [] = s0 from rfl, h0] at h
    · exact Phase.noConfusion h
    · exact Phase.noConfusion h
    · exact Phase.noConfusion h
  | append_singleton es e ih =>
    have hpre : es <+: es ++ [e] := List.prefix_append es [e]
    refine ⟨?_, ?_, ?_⟩ <;> intro h <;> rw [prun_append_one] at h
    · rcases pstep_reclaiming _ e _ h with hs | ⟨hbt, -⟩ | ⟨t0, hnext, hph, -⟩
      · obtain ⟨p1, hp1, hb⟩ := ih.1 hs
        exact ⟨p1, hp1.trans hpre, hb⟩
      · exact absurd hbt (by decide)
      · cases t0 with
        | kBenign => exact ⟨es, hpre, hph⟩
        | kIdle => exact absurd hnext (by decide)
        | kDestructive => exact absurd hnext (by decide)
    · rcases pstep_reclaiming _ e _ h with hs | ⟨hbt, -⟩ | ⟨t0, hnext, hph, -⟩
      · obtain ⟨p1, p2, h12, h2e, hb, hi⟩ := ih.2.1 hs
        exact ⟨p1, p2, h12, h2e.trans hpre, hb, hi⟩
      · exact absurd hbt (by decide)
      · cases t0 with
        | kBenign => exact absurd hnext (by decide)
        | kIdle =>
          obtain ⟨p1, hp1, hb⟩ := ih.1 hph
          exact ⟨p1, es, hp1, hpre, hb, hph⟩
        | kDestructive => exact absurd hnext (by decide)
    · rcases pstep_exhausted _ e h with hs | ⟨hph, -⟩
      · obtain ⟨p1, p2, p3, h12, h23, h3e, hb, hi, hd⟩ := ih.2.2 hs
        exact ⟨p1, p2, p3, h12, h23, h3e.trans hpre, hb, hi, hd⟩
      · obtain ⟨p1, p2, h12, h2e, hb, hi⟩ := ih.2.1 hph
        exact ⟨p1, p2, es, h12, h2e, hpre, hb, hi, hph⟩

/-- C8: tiers are attempted in the strict order Benign, Idle, Destructive.
First conjunct: a reclaiming tier is entered only from `Normal`/`Exhausted`
(and then it is the lowest tier, Benign) or by escalation from the
immediately preceding tier once that tier has no outstanding sweeps — since
sweeps for a tier are dispatched exactly on entry to it, no sweep of a
higher tier is dispatched before every sweep of the lower tier has signaled
completion, and no tier is skipped.  Second conjunct: `Exhausted` is entered
only from Destructive reclamation with all its sweeps completed.  Third
conjunct: along any event sequence from a `Normal` start that ends
`Exhausted`, the pipeline passed through Benign, then Idle, then Destructive
reclamation, in that order. -/
theorem claim_C8 :
    (∀ (s : PipeState) (e : PEvent) (t : ReclamationPass),
      s.phase ≠ Phase.reclaiming t → (pstep s e).phase = Phase.reclaiming t →
      (t = ReclamationPass.kBenign ∧
        (s.phase = Phase.normal ∨ s.phase = Phase.exhausted)) ∨
      (∃ t0, tierNext t0 = some t ∧ s.phase = Phase.reclaiming t0 ∧
        s.outstanding = 0)) ∧
    (∀ (s : PipeState) (e : PEvent),
      s.phase ≠ Phase.exhausted → (pstep s e).phase = Phase.exhausted →
      s.phase = Phase.reclaiming ReclamationPass.kDestructive ∧
        s.outstanding = 0) ∧
    (∀ (s0 : PipeState) (es : List PEvent), s0.phase = Phase.normal →
      (prun s0 es).phase = Phase.exhausted →
      ∃ p1 p2 p3, p1 <+: p2 ∧ p2 <+: p3 ∧ p3 <+: es ∧
        (prun s0 p1).phase = Phase.reclaiming ReclamationPass.kBenign ∧
        (prun s0 p2).phase = Phase.reclaiming ReclamationPass.kIdle ∧
        (prun s0 p3).phase = Phase.reclaiming ReclamationPass.kDestructive) := by
  refine ⟨?_, ?_, ?_⟩
  · intro s e t hne h
    rcases pstep_reclaiming s e t h with hs | hs | hs
    · exact absurd hs hne
    · exact Or.inl hs
    · exact Or.inr hs
  · intro s e hne h
    rcases pstep_exhausted s e h with hs | hs
    · exact absurd hs hne
    · exact hs
  · intro s0 es h0 hex
    exact (visited_invariant s0 h0 es).2.2 hex

theorem claim_C8_witness :
    ((ReclamationPass.kBenign = ReclamationPass.kBenign ∧
        (pipeDemoStart.phase = Phase.normal ∨
          pipeDemoStart.phase = Phase.exhausted)) ∨
      (∃ t0, tierNext t0 = some ReclamationPass.kBenign ∧
        pipeDemoStart.phase = Phase.reclaiming t0 ∧
        pipeDemoStart.outstanding = 0)) ∧
    (pipeDemoS3.phase = Phase.reclaiming ReclamationPass.kDestructive ∧
      pipeDemoS3.outstanding = 0) ∧
    (∃ p1 p2 p3, p1 <+: p2 ∧ p2 <+: p3 ∧ p3 <+: pipeDemoEvents ∧
      (prun pipeDemoStart p1).phase = Phase.reclaiming ReclamationPass.kBenign ∧
      (prun pipeDemoStart p2).phase = Phase.reclaiming ReclamationPass.kIdle ∧
      (prun pipeDemoStart p3).phase =
        Phase.reclaiming ReclamationPass.kDestructive) :=
  ⟨claim_C8.1 pipeDemoStart (PEvent.alloc 1) ReclamationPass.kBenign
      (by decide) (by decide),
    claim_C8.2.1 pipeDemoS3 PEvent.check (by decide) (by decide),
    claim_C8.2.2 pipeDemoStart pipeDemoEvents rfl (by decide)⟩

end PipelineProofs

namespace ChunkedVector

theorem isEmpty_false_of_ne_nil {β : Type} {l : List β} (h : l ≠ []) :
    l.isEmpty = false := by
  cases l with
  | nil => exact absurd rfl h
  | cons a rest => rfl

theorem getD_append_add {β : Type} (pre rest : List β) (n : Nat) (d : β) :
    (pre ++ rest).getD (pre.length + n) d = rest.getD n d := by
  induction pre with
  | nil => simp
  | cons a pre2 ih =>
    simp only [List.cons_append, List.length_cons, Nat.succ_add,
      List.getD_cons_succ]
    exact ih

theorem getD_append_self {β : Type} (pre : List β) (c : β) (post : List β)
    (d : β) : (pre ++ c :: post).getD pre.length d = c := by
  have h2 := getD_append_add pre (c :: post) 0 d
  simpa using h2

theorem set_append_add {β : Type} (pre rest : List β) (n : Nat) (d : β) :
    (pre ++ rest).set (pre.length + n) d = pre ++ rest.set n d := by
  induction pre with
  | nil => simp
  | cons a pre2 ih =>
    simp only [List.cons_append, List.length_cons, Nat.succ_add,
      List.set_cons_succ]
    rw [ih]

theorem set_append_self {β : Type} (pre : List β) (c d : β) (post : List β) :
    (pre ++ c :: post).set pre.length d = pre ++ d :: post := by
  have h2 := set_append_add pre (c :: post) 0 d
  simpa using h2

theorem exists_split {β : Type} (l : List β) (n : Nat) (h : n < l.length) :
    ∃ pre c post, l = pre ++ c :: post ∧ pre.length = n := by
  induction l generalizing n with
  | nil => exact absurd h (Nat.not_lt_zero n)
  | cons a rest ih =>
    cases n with
    | zero => exact ⟨[], a, rest, rfl, rfl⟩
    | succ m =>
      obtain ⟨pre, c, post, hl, hp⟩ := ih m (by simpa using h)
      exact ⟨a :: pre, c, post, by rw [hl]; rfl, by simp [hp]⟩

theorem flatten_all_nil {β : Type} {l : List (List β)}
    (h : ∀ p ∈ l, p = []) : l.flatten = [] := by
  induction l with
  | nil => rfl
  | cons a rest ih =>
    have ha : a = [] := h a (by simp)
    simp [ha, ih (fun p hp => h p (by simp [hp]))]

theorem sum_len_all_nil {β : Type} {l : List (List β)}
    (h : ∀ p ∈ l, p = []) : (l.map List.length).sum = 0 := by
  induction l with
  | nil => rfl
  | cons a rest ih =>
    have ha : a = [] := h a (by simp)
    simp [ha, ih (fun p hp => h p (by simp [hp]))]

theorem EmplaceBack_ne_nil {α : Type} (k : Nat) (ch : List (List α)) (a : Nat)
    (x : α) (h : ch ≠ []) :
    EmplaceBack k ⟨ch, a⟩ x =
      (if (ch.getD a []).length = k then
        if a + 1 = ch.length then ⟨ch ++ [[x]], a + 1⟩
        else ⟨ch.set (a + 1) ((ch.getD (a + 1) []) ++ [x]), a + 1⟩
      else ⟨ch.set a ((ch.getD a []) ++ [x]), a⟩) := by
  cases ch with
  | nil => exact absurd rfl h
  | cons c0 cr => rfl

theorem PopBack_ne_nil {α : Type} (ch : List (List α)) (a : Nat)
    (h : ch ≠ []) :
    PopBack ⟨ch, a⟩ =
      (if (ch.getD a []).length = 0 then
        if a = 0 then none else popChunkAt ⟨ch, a⟩ (a - 1)
      else popChunkAt ⟨ch, a⟩ a) := by
  cases ch with
  | nil => exact absurd rfl h
  | cons c0 cr => rfl

theorem PopBack_at {α : Type} (ch : List (List α)) (a : Nat) (c2 : List α)
    (x : α) (hne : ch ≠ []) (hg : ch.getD a [] = c2 ++ [x]) :
    PopBack ⟨ch, a⟩ = some (x, ⟨ch.set a c2, a⟩) := by
  rw [PopBack_ne_nil _ _ hne, hg, if_neg (by simp)]
  simp only [popChunkAt, hg, List.getLast?_concat, List.dropLast_concat]

theorem PopBack_retreat {α : Type} (pre : List (List α)) (c2 : List α) (x : α)
    (post : List (List α)) :
    PopBack ⟨pre ++ (c2 ++ [x]) :: ([] :: post), pre.length + 1⟩ =
      some (x, ⟨pre ++ c2 :: ([] :: post), pre.length⟩) := by
  have hne : pre ++ (c2 ++ [x]) :: (([] : List α) :: post) ≠ [] := by simp
  have hg1 : (pre ++ (c2 ++ [x]) :: ([] :: post)).getD (pre.length + 1) []
      = [] := by
    have h2 := getD_append_add pre ((c2 ++ [x]) :: ([] :: post)) 1
      ([] : List α)
    simpa using h2
  have hg0 : (pre ++ (c2 ++ [x]) :: ([] :: post)).getD pre.length []
      = c2 ++ [x] := getD_append_self _ _ _ _
  rw [PopBack_ne_nil _ _ hne, hg1,
    if_pos (show ([] : List α).length = 0 from rfl),
    if_neg (Nat.succ_ne_zero pre.length),
    show pre.length + 1 - 1 = pre.length from rfl]
  simp only [popChunkAt, hg0, List.getLast?_concat, List.dropLast_concat]
  rw [set_append_self]

theorem PopBack_retreat_nil {α : Type} (pre : List (List α))
    (post : List (List α)) :
    PopBack ⟨pre ++ ([] : List α) :: ([] :: post), pre.length + 1⟩ = none := by
  have hne : pre ++ ([] : List α) :: (([] : List α) :: post) ≠ [] := by simp
  have hg1 : (pre ++ ([] : List α) :: ([] :: post)).getD (pre.length + 1) []
      = [] := by
    have h2 := getD_append_add pre (([] : List α) :: ([] :: post)) 1
      ([] : List α)
    simpa using h2
  have hg0 : (pre ++ ([] : List α) :: ([] :: post)).getD pre.length []
      = [] := getD_append_self _ _ _ _
  rw [PopBack_ne_nil _ _ hne, hg1,
    if_pos (show ([] : List α).length = 0 from rfl),
    if_neg (Nat.succ_ne_zero pre.length),
    show pre.length + 1 - 1 = pre.length from rfl]
  simp only [popChunkAt, hg0]
  rfl

/-- C9: on any validly-represented `ChunkedVector`, `EmplaceBack(x)` followed
by `PopBack()` returns `x` and leaves the element sequence — and hence
`size()` — equal to what it was before the `EmplaceBack`. -/
theorem claim_C9 {α : Type} (k : Nat) (v : CV α) (x : α) (hv : Valid v) :
    ∃ v2, PopBack (EmplaceBack k v x) = some (x, v2) ∧
      elems v2 = elems v ∧ size v2 = size v := by
  obtain ⟨chunks, append⟩ := v
  rcases hv with hnil | hlt
  · have hnil2 : chunks = [] := hnil
    subst hnil2
    refine ⟨⟨[[]], 0⟩, ?_, by simp [elems], by simp [size]⟩
    have he : EmplaceBack k (⟨[], append⟩ : CV α) x = ⟨[[x]], 0⟩ := rfl
    rw [he]
    rfl
  · have hlt2 : append < chunks.length := hlt
    obtain ⟨pre, c, post, hch, hpre⟩ := exists_split chunks append hlt2
    subst hch
    subst hpre
    have hne : pre ++ c :: post ≠ ([] : List (List α)) := by simp
    have hg : (pre ++ c :: post).getD pre.length [] = c :=
      getD_append_self _ _ _ _
    by_cases hfull : c.length = k
    · by_cases hlast : pre.length + 1 = (pre ++ c :: post).length
      · have hpost : post = [] := by
          have h3 := hlast
          simp only [List.length_append, List.length_cons] at h3
          exact List.length_eq_zero.mp (by omega)
        subst hpost
        have he : EmplaceBack k (⟨pre ++ c :: [], pre.length⟩ : CV α) x =
            ⟨(pre ++ c :: []) ++ [[x]], pre.length + 1⟩ := by
          rw [EmplaceBack_ne_nil _ _ _ _ hne, hg, if_pos hfull, if_pos hlast]
        refine ⟨⟨(pre ++ c :: []) ++ [([] : List α)], pre.length + 1⟩, ?_, ?_, ?_⟩
        · rw [he]
          have hg2 : ((pre ++ c :: []) ++ [[x]]).getD (pre.length + 1) []
              = [x] := by
            have h2 := getD_append_add (pre ++ c :: []) [[x]] 0 ([] : List α)
            simpa using h2
          have hset : ((pre ++ c :: []) ++ [[x]]).set (pre.length + 1)
              ([] : List α) = (pre ++ c :: []) ++ [([] : List α)] := by
            have h2 := set_append_add (pre ++ c :: []) [[x]] 0 ([] : List α)
            simpa using h2
          rw [PopBack_at ((pre ++ c :: []) ++ [[x]]) (pre.length + 1)
            ([] : List α) x (by simp) hg2, hset]
        · simp [elems, List.flatten_append]
        · simp [size, List.map_append, List.sum_append]
      · cases post with
        | nil => exact absurd (by simp) hlast
        | cons p0 post2 =>
          have hg1 : (pre ++ c :: p0 :: post2).getD (pre.length + 1) []
              = p0 := by
            have h2 := getD_append_add pre (c :: p0 :: post2) 1 ([] : List α)
            simpa using h2
          have hset1 : (pre ++ c :: p0 :: post2).set (pre.length + 1)
              (p0 ++ [x]) = pre ++ c :: (p0 ++ [x]) :: post2 := by
            have h2 := set_append_add pre (c :: p0 :: post2) 1 (p0 ++ [x])
            simpa using h2
          have he : EmplaceBack k (⟨pre ++ c :: p0 :: post2, pre.length⟩ : CV α)
              x = ⟨pre ++ c :: (p0 ++ [x]) :: post2, pre.length + 1⟩ := by
            rw [EmplaceBack_ne_nil _ _ _ _ hne, hg, if_pos hfull,
              if_neg hlast, hg1, hset1]
          refine ⟨⟨pre ++ c :: p0 :: post2, pre.length + 1⟩, ?_, rfl, rfl⟩
          rw [he]
          have hg2 : (pre ++ c :: (p0 ++ [x]) :: post2).getD (pre.length + 1)
              [] = p0 ++ [x] := by
            have h2 := getD_append_add pre (c :: (p0 ++ [x]) :: post2) 1
              ([] : List α)
            simpa using h2
          have hset2 : (pre ++ c :: (p0 ++ [x]) :: post2).set (pre.length + 1)
              p0 = pre ++ c :: p0 :: post2 := by
            have h2 := set_append_add pre (c :: (p0 ++ [x]) :: post2) 1 p0
            simpa using h2
          rw [PopBack_at _ _ p0 x (by simp) hg2, hset2]
    · have he : EmplaceBack k (⟨pre ++ c :: post, pre.length⟩ : CV α) x =
          ⟨pre ++ (c ++ [x]) :: post, pre.length⟩ := by
        rw [EmplaceBack_ne_nil _ _ _ _ hne, hg, if_neg hfull, set_append_self]
      refine ⟨⟨pre ++ c :: post, pre.length⟩, ?_, rfl, rfl⟩
      rw [he]
      have hg2 : (pre ++ (c ++ [x]) :: post).getD pre.length [] = c ++ [x] :=
        getD_append_self _ _ _ _
      rw [PopBack_at _ _ c x (by simp) hg2, set_append_self]

theorem claim_C9_witness :
    ∃ v2, PopBack (EmplaceBack 2 (⟨[[1]], 0⟩ : CV Nat) 9) = some (9, v2) ∧
      elems v2 = elems (⟨[[1]], 0⟩ : CV Nat) ∧
      size v2 = size (⟨[[1]], 0⟩ : CV Nat) :=
  claim_C9 2 ⟨[[1]], 0⟩ 9 (by right; decide)

end ChunkedVector

namespace ChunkedVector

theorem wf_emplace {α : Type} (k : Nat) (v : CV α) (x : α) (hk : 0 < k)
    (hw : WF k v) : WF k (EmplaceBack k v x) := by
  obtain ⟨chunks, append⟩ := v
  rcases hw with ⟨hnil, happ⟩ | ⟨pre, c, post, hch, hpre, hprefull, hclen, hpost⟩
  · have hnil2 : chunks = [] := hnil
    have happ2 : append = 0 := happ
    subst hnil2
    subst happ2
    have he : EmplaceBack k (⟨[], 0⟩ : CV α) x = ⟨[[x]], 0⟩ := rfl
    rw [he]
    exact Or.inr ⟨[], [x], [], rfl, rfl, by simp, by simpa using hk, by simp⟩
  · have hch2 : chunks = pre ++ c :: post := hch
    have hpre2 : append = pre.length := hpre
    subst hch2
    subst hpre2
    have hne : pre ++ c :: post ≠ ([] : List (List α)) := by simp
    have hg : (pre ++ c :: post).getD pre.length [] = c :=
      getD_append_self _ _ _ _
    by_cases hfull : c.length = k
    · by_cases hlast : pre.length + 1 = (pre ++ c :: post).length
      · have hpost0 : post = [] := by
          have h3 := hlast
          simp only [List.length_append, List.length_cons] at h3
          exact List.length_eq_zero.mp (by omega)
        subst hpost0
        have he : EmplaceBack k (⟨pre ++ c :: [], pre.length⟩ : CV α) x =
            ⟨(pre ++ c :: []) ++ [[x]], pre.length + 1⟩ := by
          rw [EmplaceBack_ne_nil _ _ _ _ hne, hg, if_pos hfull, if_pos hlast]
        rw [he]
        refine Or.inr ⟨pre ++ c :: [], [x], [], rfl, by simp, ?_,
          by simpa using hk, by simp⟩
        intro p hp
        rcases List.mem_append.mp hp with h1 | h1
        · exact hprefull p h1
        · have : p = c := by simpa using h1
          rw [this]
          exact hfull
      · cases post with
        | nil => exact absurd (by simp) hlast
        | cons p0 post2 =>
          have hp0 : p0 = [] := hpost p0 (by simp)
          subst hp0
          have hg1 : (pre ++ c :: ([] : List α) :: post2).getD (pre.length + 1)
              [] = [] := by
            have h2 := getD_append_add pre (c :: ([] : List α) :: post2) 1
              ([] : List α)
            simpa using h2
          have hset1 : (pre ++ c :: ([] : List α) :: post2).set (pre.length + 1)
              (([] : List α) ++ [x]) = pre ++ c :: [x] :: post2 := by
            have h2 := set_append_add pre (c :: ([] : List α) :: post2) 1
              (([] : List α) ++ [x])
            simpa using h2
          have he : EmplaceBack k
              (⟨pre ++ c :: ([] : List α) :: post2, pre.length⟩ : CV α) x =
              ⟨pre ++ c :: [x] :: post2, pre.length + 1⟩ := by
            rw [EmplaceBack_ne_nil _ _ _ _ hne, hg, if_pos hfull,
              if_neg hlast, hg1, hset1]
          rw [he]
          refine Or.inr ⟨pre ++ c :: [], [x], post2, by simp, by simp, ?_,
            by simpa using hk, fun p hp => hpost p (by simp [hp])⟩
          intro p hp
          rcases List.mem_append.mp hp with h1 | h1
          · exact hprefull p h1
          · have : p = c := by simpa using h1
            rw [this]
            exact hfull
    · have he : EmplaceBack k (⟨pre ++ c :: post, pre.length⟩ : CV α) x =
          ⟨pre ++ (c ++ [x]) :: post, pre.length⟩ := by
        rw [EmplaceBack_ne_nil _ _ _ _ hne, hg, if_neg hfull, set_append_self]
      rw [he]
      exact Or.inr ⟨pre, c ++ [x], post, rfl, rfl, hprefull,
        by simp only [List.length_append, List.length_cons, List.length_nil]
           omega, hpost⟩

theorem wf_pop {α : Type} (k : Nat) {v v2 : CV α} {x : α} (hw : WF k v)
    (h : PopBack v = some (x, v2)) : WF k v2 := by
  obtain ⟨chunks, append⟩ := v
  rcases hw with ⟨hnil, happ⟩ | ⟨pre, c, post, hch, hpre, hprefull, hclen, hpost⟩
  · have hnil2 : chunks = [] := hnil
    subst hnil2
    exact Option.noConfusion h
  · have hch2 : chunks = pre ++ c :: post := hch
    have hpre2 : append = pre.length := hpre
    subst hch2
    subst hpre2
    by_cases hc0 : c.length = 0
    · have hc : c = [] := List.length_eq_zero.mp hc0
      subst hc
      rcases List.eq_nil_or_concat pre with rfl | ⟨pre2, cl, rfl⟩
      · exact Option.noConfusion h
      · simp only [List.concat_eq_append] at h hprefull
        have hclk : cl.length = k := hprefull cl (by simp)
        have hEq : (pre2 ++ [cl]) ++ ([] : List α) :: post =
            pre2 ++ cl :: (([] : List α) :: post) := by simp
        have hlen : (pre2 ++ [cl]).length = pre2.length + 1 := by simp
        rw [hEq, hlen] at h
        rcases List.eq_nil_or_concat cl with rfl | ⟨cl2, y, rfl⟩
        · rw [PopBack_retreat_nil] at h
          exact Option.noConfusion h
        · simp only [List.concat_eq_append] at h hclk
          rw [PopBack_retreat] at h
          rw [Option.some.injEq, Prod.mk.injEq] at h
          obtain ⟨-, hv2⟩ := h
          subst hv2
          refine Or.inr ⟨pre2, cl2, ([] : List α) :: post, rfl, rfl,
            fun p hp => hprefull p (by simp [hp]), ?_, ?_⟩
          · have h3 : (cl2 ++ [y]).length = k := hclk
            simp only [List.length_append, List.length_cons,
              List.length_nil] at h3
            omega
          · intro p hp
            rcases List.mem_cons.mp hp with rfl | hp2
            · rfl
            · exact hpost p hp2
    · rcases List.eq_nil_or_concat c with rfl | ⟨c2, y, rfl⟩
      · exact absurd rfl hc0
      · simp only [List.concat_eq_append] at h hclen
        have hg : (pre ++ (c2 ++ [y]) :: post).getD pre.length [] =
            c2 ++ [y] := getD_append_self _ _ _ _
        rw [PopBack_at _ _ c2 y (by simp) hg, set_append_self] at h
        rw [Option.some.injEq, Prod.mk.injEq] at h
        obtain ⟨-, hv2⟩ := h
        subst hv2
        refine Or.inr ⟨pre, c2, post, rfl, rfl, hprefull, ?_, hpost⟩
        simp only [List.length_append, List.length_cons,
          List.length_nil] at hclen
        omega

theorem clearChunks_of_all_nil {α : Type} (l : List (List α))
    (h : ∀ p ∈ l, p = []) : ∀ p ∈ clearChunks l, p = [] := by
  induction l with
  | nil =>
    intro p hp
    exact absurd hp (by simp [clearChunks])
  | cons a rest ih =>
    intro p hp
    have ha : a = [] := h a (by simp)
    rw [clearChunks, if_pos (by simp [ha])] at hp
    rcases List.mem_cons.mp hp with rfl | hp2
    · exact ha
    · exact h p (by simp [hp2])

theorem clearChunks_all_nil {α : Type} (k : Nat) (pre : List (List α))
    (c : List α) (post : List (List α)) (hpre : ∀ p ∈ pre, p.length = k)
    (hc : c.length ≤ k) (hpost : ∀ p ∈ post, p = []) :
    ∀ p ∈ clearChunks (pre ++ c :: post), p = [] := by
  induction pre with
  | nil =>
    intro p hp
    by_cases hc0 : c.length = 0
    · rw [List.nil_append, clearChunks, if_pos hc0] at hp
      rcases List.mem_cons.mp hp with rfl | hp2
      · exact List.length_eq_zero.mp hc0
      · exact hpost p hp2
    · rw [List.nil_append, clearChunks, if_neg hc0] at hp
      rcases List.mem_cons.mp hp with rfl | hp2
      · rfl
      · exact clearChunks_of_all_nil post hpost p hp2
  | cons a pre2 ih =>
    intro p hp
    have hak : a.length = k := hpre a (by simp)
    by_cases ha0 : a.length = 0
    · rw [List.cons_append, clearChunks, if_pos ha0] at hp
      rcases List.mem_cons.mp hp with rfl | hp2
      · exact List.length_eq_zero.mp ha0
      · rcases List.mem_append.mp hp2 with h1 | h1
        · have h2 : p.length = k := hpre p (by simp [h1])
          exact List.length_eq_zero.mp (by omega)
        · rcases List.mem_cons.mp h1 with rfl | h2
          · exact List.length_eq_zero.mp (by omega)
          · exact hpost p h2
    · rw [List.cons_append, clearChunks, if_neg ha0] at hp
      rcases List.mem_cons.mp hp with rfl | hp2
      · rfl
      · exact ih (fun q hq => hpre q (by simp [hq])) p hp2

theorem wf_clear {α : Type} (k : Nat) (v : CV α) (hw : WF k v) :
    WF k (Clear v) := by
  obtain ⟨chunks, append⟩ := v
  have hall : ∀ p ∈ clearChunks chunks, p = [] := by
    rcases hw with ⟨hnil, -⟩ | ⟨pre, c, post, hch, -, hprefull, hclen, hpost⟩
    · have h2 : chunks = [] := hnil
      subst h2
      intro p hp
      exact absurd hp (by simp [clearChunks])
    · have h2 : chunks = pre ++ c :: post := hch
      subst h2
      exact clearChunks_all_nil k pre c post hprefull hclen hpost
  cases hcc : clearChunks chunks with
  | nil => exact Or.inl ⟨by simp [Clear, hcc], rfl⟩
  | cons c0 rest =>
    refine Or.inr ⟨[], c0, rest, by simp [Clear, hcc], rfl, by simp, ?_, ?_⟩
    · have hc0 : c0 = [] := hall c0 (by rw [hcc]; simp)
      simp [hc0]
    · intro p hp
      exact hall p (by rw [hcc]; simp [hp])

theorem reachable_wf {α : Type} (k : Nat) (hk : 0 < k) {v : CV α}
    (h : Reachable k v) : WF k v := by
  induction h with
  | nil => exact Or.inl ⟨rfl, rfl⟩
  | emp x hr ih => exact wf_emplace k _ x hk ih
  | pop hr hp ih => exact wf_pop k ih hp
  | clr hr ih => exact wf_clear k _ ih

/-- C10: on every `ChunkedVector` built through the API (with positive chunk
size), when `size() > 0` the defensive assertions in `PopBack`
(`append_ != nullptr`, and `first_ != append_` when the append chunk is
empty) never fire and `PopBack` removes and returns the last element of the
element sequence; on an empty vector `PopBack` hits a fatal assertion
(modelled as `none`) rather than returning a value. -/
theorem claim_C10 {α : Type} (k : Nat) (v : CV α) (hk : 0 < k)
    (hr : Reachable k v) :
    (0 < size v → ∃ x v2, PopBack v = some (x, v2) ∧
      (elems v).getLast? = some x ∧ elems v2 = (elems v).dropLast) ∧
    (size v = 0 → PopBack v = none) := by
  have hw := reachable_wf k hk hr
  obtain ⟨chunks, append⟩ := v
  rcases hw with ⟨hnil, happ⟩ | ⟨pre, c, post, hch, hpre, hprefull, hclen, hpost⟩
  · have h2 : chunks = [] := hnil
    have h3 : append = 0 := happ
    subst h2
    subst h3
    constructor
    · intro hsz
      exact absurd hsz (by simp [size])
    · intro _
      rfl
  · have h2 : chunks = pre ++ c :: post := hch
    have h3 : append = pre.length := hpre
    subst h2
    subst h3
    have hfl : post.flatten = [] := flatten_all_nil hpost
    constructor
    · intro hsz
      by_cases hcnil : c = []
      · subst hcnil
        rcases List.eq_nil_or_concat pre with rfl | ⟨pre2, cl, rfl⟩
        · exfalso
          have h0 : size (⟨([] : List (List α)) ++ ([] : List α) :: post,
              ([] : List (List α)).length⟩ : CV α) = 0 := by
            simp [size, sum_len_all_nil hpost]
          rw [h0] at hsz
          exact Nat.lt_irrefl 0 hsz
        · simp only [List.concat_eq_append] at hprefull ⊢
          have hclk : cl.length = k := hprefull cl (by simp)
          have hclnil : cl ≠ [] := by
            intro hh
            rw [hh] at hclk
            simp at hclk
            omega
          rcases List.eq_nil_or_concat cl with rfl | ⟨cl2, y, rfl⟩
          · exact absurd rfl hclnil
          · simp only [List.concat_eq_append]
            have he1 : elems (⟨(pre2 ++ [cl2 ++ [y]]) ++ ([] : List α) :: post,
                (pre2 ++ [cl2 ++ [y]]).length⟩ : CV α) =
                (pre2.flatten ++ cl2) ++ [y] := by
              simp [elems, List.flatten_append, hfl]
            have he2 : elems (⟨pre2 ++ cl2 :: (([] : List α) :: post),
                pre2.length⟩ : CV α) = pre2.flatten ++ cl2 := by
              simp [elems, List.flatten_append, hfl]
            refine ⟨y, ⟨pre2 ++ cl2 :: (([] : List α) :: post), pre2.length⟩,
              ?_, ?_, ?_⟩
            · have hEq : (pre2 ++ [cl2 ++ [y]]) ++ ([] : List α) :: post =
                  pre2 ++ (cl2 ++ [y]) :: (([] : List α) :: post) := by simp
              have hlen : (pre2 ++ [cl2 ++ [y]]).length = pre2.length + 1 := by
                simp
              rw [hEq, hlen, PopBack_retreat]
            · rw [he1, List.getLast?_concat]
            · rw [he1, he2, List.dropLast_concat]
      · rcases List.eq_nil_or_concat c with rfl | ⟨c2, y, rfl⟩
        · exact absurd rfl hcnil
        · simp only [List.concat_eq_append]
          have he1 : elems (⟨pre ++ (c2 ++ [y]) :: post, pre.length⟩ : CV α) =
              (pre.flatten ++ c2) ++ [y] := by
            simp [elems, List.flatten_append, hfl]
          have he2 : elems (⟨pre ++ c2 :: post, pre.length⟩ : CV α) =
              pre.flatten ++ c2 := by
            simp [elems, List.flatten_append, hfl]
          refine ⟨y, ⟨pre ++ c2 :: post, pre.length⟩, ?_, ?_, ?_⟩
          · have hg : (pre ++ (c2 ++ [y]) :: post).getD pre.length [] =
                c2 ++ [y] := getD_append_self _ _ _ _
            rw [PopBack_at _ _ c2 y (by simp) hg, set_append_self]
          · rw [he1, List.getLast?_concat]
          · rw [he1, he2, List.dropLast_concat]
    · intro hsz
      have hall : ∀ n ∈ ((pre ++ c :: post).map List.length), n = 0 :=
        List.sum_eq_zero_iff.mp
          (show (((pre ++ c :: post).map List.length)).sum = 0 from hsz)
      have hc0 : c = [] := List.length_eq_zero.mp
        (hall c.length (List.mem_map_of_mem List.length (by simp)))
      have hpre0 : pre = [] := by
        cases pre with
        | nil => rfl
        | cons a pre2 =>
          have h1 : a.length = 0 :=
            hall a.length (List.mem_map_of_mem List.length (by simp))
          have h2 : a.length = k := hprefull a (by simp)
          omega
      subst hc0
      subst hpre0
      rfl

theorem claim_C10_witness :
    (∃ x v2, PopBack c10Demo = some (x, v2) ∧
      (elems c10Demo).getLast? = some x ∧
      elems v2 = (elems c10Demo).dropLast) ∧
    PopBack (⟨[], 0⟩ : CV Nat) = none :=
  ⟨(claim_C10 2 c10Demo (by decide) (Reachable.emp 5 Reachable.nil)).1
      (by decide),
    (claim_C10 2 ⟨[], 0⟩ (by decide) Reachable.nil).2 rfl⟩

end ChunkedVector
